import Mathlib

set_option maxRecDepth 100000

/-!
Verification of the ignore-region extractor of rn-storybook-test
(`src/detect-ignore-regions.ts`, function `findBoundingRectangles`).

The extractor takes the list of diff-colored pixels found by scanning a
diff image (row-major scan, so coordinates are non-negative integers) and
the image dimensions, and returns a list of candidate ignore regions.

The embedding below mirrors the TypeScript line by line:
* pixel/region coordinates are naturals (the scan only yields naturals);
* `Math.max(0, a - 5)` on naturals is truncated subtraction `a - 5`;
* the JavaScript `Map` built with `yGroups.set` iterates in insertion
  order, i.e. in the order of first occurrence of each band key, with the
  final count for each key: modelled via `dedupFirst` plus `countBand`;
* `count > pixels.length * 0.1` is modelled as `10 * count > length`
  (exact for all list lengths arising from images);
* `regions.filter(area).filter(containment)` chains two `Array.filter`
  calls, so the containment pass receives the area-filtered array and the
  element index within it: modelled with `List.enum`.
-/

structure Pixel where
  x : Nat
  y : Nat
deriving DecidableEq, Repr

structure DiffRegion where
  x : Nat
  y : Nat
  width : Nat
  height : Nat
deriving DecidableEq, Repr

/-- `Math.min(...list)` for a non-empty list (`[]` never reaches it). -/
def minL : List Nat → Nat
  | [] => 0
  | [a] => a
  | a :: b :: t => min a (minL (b :: t))

/-- `Math.max(...list)` for a non-empty list of naturals. -/
def maxL : List Nat → Nat
  | [] => 0
  | a :: t => max a (maxL t)

/-- `Math.floor(p.y / 10) * 10`, the 10px band a pixel belongs to. -/
def bandKey (p : Pixel) : Nat := p.y / 10 * 10

/-- Keys of a JavaScript `Map` iterate in first-insertion order. -/
def dedupFirst (l : List Nat) : List Nat :=
  l.foldl (fun acc b => if b ∈ acc then acc else acc ++ [b]) []

def bandKeys (pixels : List Pixel) : List Nat :=
  dedupFirst (pixels.map bandKey)

/-- Final count stored in `yGroups` for band `b`. -/
def countBand (b : Nat) (pixels : List Pixel) : Nat :=
  (pixels.filter (fun p => bandKey p == b)).length

/-- `Math.abs(a - b)` on naturals. -/
def absDiff (a b : Nat) : Nat := max a b - min a b

/-- `pixels.filter((p) => Math.abs(p.y - yBand) < 15)`. -/
def vicinity (b : Nat) (pixels : List Pixel) : List Pixel :=
  pixels.filter (fun p => decide (absDiff p.y b < 15))

/-- The overall bounding rectangle pushed first (lines 276-292). -/
def overallBBox (pixels : List Pixel) : DiffRegion :=
  let minX := minL (pixels.map Pixel.x)
  let maxX := maxL (pixels.map Pixel.x)
  let minY := minL (pixels.map Pixel.y)
  let maxY := maxL (pixels.map Pixel.y)
  ⟨minX, minY, maxX - minX + 1, maxY - minY + 1⟩

/-- The padded band rectangle pushed for a qualifying band (lines 308-318).
`Math.max(0, bandMinX - 5)` is natural truncated subtraction. -/
def bandRegion (b : Nat) (pixels : List Pixel)
    (imageWidth imageHeight : Nat) : DiffRegion :=
  let bp := vicinity b pixels
  let bandMinX := minL (bp.map Pixel.x)
  let bandMaxX := maxL (bp.map Pixel.x)
  let bandMinY := minL (bp.map Pixel.y)
  let bandMaxY := maxL (bp.map Pixel.y)
  ⟨bandMinX - 5, bandMinY - 5,
   min imageWidth (bandMaxX - bandMinX + 11),
   min imageHeight (bandMaxY - bandMinY + 11)⟩

/-- The band loop (lines 302-321): for each key of `yGroups`, in insertion
order, push the padded band rectangle when the band holds more than 10% of
all pixels and its ±15px vicinity holds more than 50 pixels. -/
def bandCandidates (pixels : List Pixel)
    (imageWidth imageHeight : Nat) : List DiffRegion :=
  (bandKeys pixels).filterMap (fun b =>
    if 10 * countBand b pixels > pixels.length then
      if 50 < (vicinity b pixels).length then
        some (bandRegion b pixels imageWidth imageHeight)
      else none
    else none)

/-- The full candidate array `regions`: overall bbox first, then bands. -/
def candidateRegions (pixels : List Pixel)
    (imageWidth imageHeight : Nat) : List DiffRegion :=
  overallBBox pixels :: bandCandidates pixels imageWidth imageHeight

/-- `.filter((r) => r.width * r.height > 100)` (line 325). -/
def areaFiltered (pixels : List Pixel)
    (imageWidth imageHeight : Nat) : List DiffRegion :=
  (candidateRegions pixels imageWidth imageHeight).filter
    (fun r => decide (100 < r.width * r.height))

/-- `other` contains `region` in the sense of lines 330-334 (non-strict). -/
def containsB (other region : DiffRegion) : Bool :=
  decide (other.x ≤ region.x) && decide (other.y ≤ region.y) &&
  decide (region.x + region.width ≤ other.x + other.width) &&
  decide (region.y + region.height ≤ other.y + other.height)

/-- The predicate of the containment `.filter((region, index, arr) => ...)`
(lines 326-336): keep an entry unless some entry of `arr` at a different
index contains it. `arr` is the area-filtered array. -/
def keepB (arr : List DiffRegion) (p : Nat × DiffRegion) : Bool :=
  ! arr.enum.any (fun q => q.1 != p.1 && containsB q.2 p.2)

/-- The containment filter applied to the area-filtered array. -/
def uniqueRegions (arr : List DiffRegion) : List DiffRegion :=
  (arr.enum.filter (keepB arr)).map Prod.snd

/-- `findBoundingRectangles` (lines 268-339): early return on an empty
pixel list, otherwise candidates, area filter, containment filter, and
`.slice(0, 5)`. -/
def findBoundingRectangles (pixels : List Pixel)
    (imageWidth imageHeight : Nat) : List DiffRegion :=
  if pixels.isEmpty then []
  else (uniqueRegions (areaFiltered pixels imageWidth imageHeight)).take 5

/-! Concrete inputs used by the counterexamples and witnesses below.
Each is written in the row-major order in which `analyzeDiffImage`
collects diff pixels (y outer, x inner). -/

/-- A 100×100 image with diff pixels exactly at `(x, 90)`, `0 ≤ x ≤ 99`. -/
def row90 : List Pixel := (List.range 100).map (fun x => ⟨x, 90⟩)

/-- A 100×100 image with diff pixels exactly at `(x, 50)`, `0 ≤ x ≤ 99`. -/
def row50 : List Pixel := (List.range 100).map (fun x => ⟨x, 50⟩)

/-- A dense 10×10 cluster at the origin of a 100×100 image. -/
def grid10 : List Pixel := (List.range 100).map (fun i => ⟨i % 10, i / 10⟩)

/-- A dense 5×20 block in the top-right corner of a 100×100 image. -/
def cornerPixels : List Pixel :=
  (List.range 100).map (fun i => ⟨95 + i % 5, i / 5⟩)

/-- Every pixel of a 20×12 image. -/
def block2012 : List Pixel :=
  (List.range 240).map (fun i => ⟨i % 20, i / 20⟩)

/-- `row90` plus one extra pixel at `(50, 0)` (scan order puts it first). -/
def rowPlus : List Pixel := ⟨50, 0⟩ :: row90

/-! Basic facts about `minL` and `maxL`. -/

theorem minL_le_of_mem : ∀ {l : List Nat} {a : Nat}, a ∈ l → minL l ≤ a
  | [], _, h => absurd h (List.not_mem_nil _)
  | [_], _, h => by
      rcases List.mem_singleton.mp h with rfl
      simp [minL]
  | _ :: _ :: _, _, h => by
      rcases List.mem_cons.mp h with rfl | h2
      · exact Nat.min_le_left _ _
      · exact Nat.le_trans (Nat.min_le_right _ _) (minL_le_of_mem h2)

theorem le_maxL_of_mem : ∀ {l : List Nat} {a : Nat}, a ∈ l → a ≤ maxL l
  | [], _, h => absurd h (List.not_mem_nil _)
  | _ :: _, _, h => by
      rcases List.mem_cons.mp h with rfl | h2
      · exact Nat.le_max_left _ _
      · exact Nat.le_trans (le_maxL_of_mem h2) (Nat.le_max_right _ _)

theorem minL_mem : ∀ {l : List Nat}, l ≠ [] → minL l ∈ l
  | [], h => absurd rfl h
  | [a], _ => by simp [minL]
  | a :: b :: t, _ => by
      have ih := minL_mem (l := b :: t) (by simp)
      show min a (minL (b :: t)) ∈ a :: b :: t
      rcases Nat.le_total a (minL (b :: t)) with h | h
      · rw [Nat.min_eq_left h]; exact List.mem_cons_self _ _
      · rw [Nat.min_eq_right h]; exact List.mem_cons_of_mem _ ih

theorem maxL_mem : ∀ {l : List Nat}, l ≠ [] → maxL l ∈ l
  | [], h => absurd rfl h
  | [a], _ => by simp [maxL]
  | a :: b :: t, _ => by
      have ih := maxL_mem (l := b :: t) (by simp)
      show max a (maxL (b :: t)) ∈ a :: b :: t
      rcases Nat.le_total (maxL (b :: t)) a with h | h
      · rw [Nat.max_eq_left h]; exact List.mem_cons_self _ _
      · rw [Nat.max_eq_right h]; exact List.mem_cons_of_mem _ ih

theorem minL_le_maxL {l : List Nat} (h : l ≠ []) : minL l ≤ maxL l :=
  le_maxL_of_mem (minL_mem h)

theorem maxL_lt {l : List Nat} {W : Nat} (h : l ≠ [])
    (hf : ∀ a ∈ l, a < W) : maxL l < W :=
  hf _ (maxL_mem h)

/-! Membership in `dedupFirst` and `bandKeys`. -/

theorem mem_dedupFirst_aux :
    ∀ (l acc : List Nat) (b : Nat),
      b ∈ l.foldl (fun acc x => if x ∈ acc then acc else acc ++ [x]) acc ↔
        b ∈ acc ∨ b ∈ l := by
  intro l
  induction l with
  | nil => intro acc b; simp
  | cons x t ih =>
    intro acc b
    rw [List.foldl_cons, ih]
    by_cases hx : x ∈ acc
    · rw [if_pos hx]
      simp only [List.mem_cons]
      constructor
      · rintro (h | h)
        · exact Or.inl h
        · exact Or.inr (Or.inr h)
      · rintro (h | rfl | h)
        · exact Or.inl h
        · exact Or.inl hx
        · exact Or.inr h
    · rw [if_neg hx]
      simp only [List.mem_append, List.mem_singleton, List.mem_cons]
      tauto

theorem mem_bandKeys {pixels : List Pixel} {b : Nat} :
    b ∈ bandKeys pixels ↔ b ∈ pixels.map bandKey := by
  unfold bandKeys dedupFirst
  rw [mem_dedupFirst_aux]
  simp

/-! Decomposition of membership in the successive stages of the pipeline. -/

theorem keepB_spec {arr : List DiffRegion} {i : Nat} {r : DiffRegion}
    (hk : keepB arr (i, r) = true) {j : Nat} {s : DiffRegion}
    (hj : arr[j]? = some s) (hne : j ≠ i) : containsB s r = false := by
  have hmem : (j, s) ∈ arr.enum := List.mem_enum_iff_getElem?.mpr hj
  unfold keepB at hk
  rw [Bool.not_eq_true', List.any_eq_false] at hk
  have h2 := hk (j, s) hmem
  by_contra hcb
  rw [Bool.not_eq_false] at hcb
  apply h2
  simp [bne_iff_ne, hne, hcb]

theorem mem_uniqueRegions {arr : List DiffRegion} {r : DiffRegion}
    (h : r ∈ uniqueRegions arr) :
    ∃ i, arr[i]? = some r ∧ keepB arr (i, r) = true := by
  unfold uniqueRegions at h
  obtain ⟨p, hp, hps⟩ := List.mem_map.mp h
  obtain ⟨hpe, hpk⟩ := List.mem_filter.mp hp
  obtain ⟨i, r'⟩ := p
  cases hps
  exact ⟨i, List.mem_enum_iff_getElem?.mp hpe, hpk⟩

theorem uniqueRegions_subset {arr : List DiffRegion} {r : DiffRegion}
    (h : r ∈ uniqueRegions arr) : r ∈ arr := by
  obtain ⟨i, hi, -⟩ := mem_uniqueRegions h
  exact List.getElem?_mem hi

theorem mem_areaFiltered_of_mem_output {pixels : List Pixel} {W H : Nat}
    {r : DiffRegion} (h : r ∈ findBoundingRectangles pixels W H) :
    r ∈ areaFiltered pixels W H := by
  unfold findBoundingRectangles at h
  split at h
  · simp at h
  · exact uniqueRegions_subset (List.mem_of_mem_take h)

theorem of_mem_areaFiltered {pixels : List Pixel} {W H : Nat}
    {r : DiffRegion} (h : r ∈ areaFiltered pixels W H) :
    (r = overallBBox pixels ∨ r ∈ bandCandidates pixels W H) ∧
      100 < r.width * r.height := by
  obtain ⟨hc, ha⟩ := List.mem_filter.mp h
  refine ⟨?_, by simpa using ha⟩
  simpa [candidateRegions, List.mem_cons] using hc

theorem of_mem_bandCandidates {pixels : List Pixel} {W H : Nat}
    {r : DiffRegion} (h : r ∈ bandCandidates pixels W H) :
    ∃ b, pixels.length < 10 * countBand b pixels ∧
      50 < (vicinity b pixels).length ∧ r = bandRegion b pixels W H := by
  unfold bandCandidates at h
  obtain ⟨b, hb, hfb⟩ := List.mem_filterMap.mp h
  by_cases h1 : 10 * countBand b pixels > pixels.length
  · rw [if_pos h1] at hfb
    by_cases h2 : 50 < (vicinity b pixels).length
    · rw [if_pos h2] at hfb
      exact ⟨b, h1, h2, (Option.some.inj hfb).symm⟩
    · rw [if_neg h2] at hfb; cases hfb
  · rw [if_neg h1] at hfb; cases hfb

theorem vicinity_subset {b : Nat} {pixels : List Pixel} {p : Pixel}
    (h : p ∈ vicinity b pixels) : p ∈ pixels :=
  (List.mem_filter.mp h).1

/-- Claim C1 (amended): every region returned by the extractor has
non-negative coordinates (naturals here), positive width and height, width
at most the image width and height at most the image height, and its
right/bottom edge exceeds the image edge by at most the 5px band padding:
x + width ≤ imageWidth + 5 and y + height ≤ imageHeight + 5. The original
bound x + width ≤ imageWidth fails (see the counterexample): the code
clamps a band rectangle's width to the image width but not relative to
its x offset. -/
theorem regions_within_padded_bounds (pixels : List Pixel) (W H : Nat)
    (hb : ∀ p ∈ pixels, p.x < W ∧ p.y < H) :
    ∀ r ∈ findBoundingRectangles pixels W H,
      0 < r.width ∧ 0 < r.height ∧ r.width ≤ W ∧ r.height ≤ H ∧
      r.x + r.width ≤ W + 5 ∧ r.y + r.height ≤ H + 5 := by
  intro r hr
  obtain ⟨hcand, harea⟩ :=
    of_mem_areaFiltered (mem_areaFiltered_of_mem_output hr)
  have hne : pixels ≠ [] := by
    intro hnil
    subst hnil
    simp [findBoundingRectangles] at hr
  rcases hcand with rfl | hbc
  · have hxne : pixels.map Pixel.x ≠ [] := by simpa using hne
    have hyne : pixels.map Pixel.y ≠ [] := by simpa using hne
    have hx1 : minL (pixels.map Pixel.x) ≤ maxL (pixels.map Pixel.x) :=
      minL_le_maxL hxne
    have hx2 : maxL (pixels.map Pixel.x) < W := by
      apply maxL_lt hxne
      intro a ha
      obtain ⟨p, hp, rfl⟩ := List.mem_map.mp ha
      exact (hb p hp).1
    have hy1 : minL (pixels.map Pixel.y) ≤ maxL (pixels.map Pixel.y) :=
      minL_le_maxL hyne
    have hy2 : maxL (pixels.map Pixel.y) < H := by
      apply maxL_lt hyne
      intro a ha
      obtain ⟨p, hp, rfl⟩ := List.mem_map.mp ha
      exact (hb p hp).2
    simp only [overallBBox]
    omega
  · obtain ⟨b, hcount, hlen, rfl⟩ := of_mem_bandCandidates hbc
    have hvne : vicinity b pixels ≠ [] := by
      intro hnil; rw [hnil] at hlen; simp at hlen
    have hxne : (vicinity b pixels).map Pixel.x ≠ [] := by simpa using hvne
    have hyne : (vicinity b pixels).map Pixel.y ≠ [] := by simpa using hvne
    have hx1 : minL ((vicinity b pixels).map Pixel.x) ≤
        maxL ((vicinity b pixels).map Pixel.x) := minL_le_maxL hxne
    have hx2 : maxL ((vicinity b pixels).map Pixel.x) < W := by
      apply maxL_lt hxne
      intro a ha
      obtain ⟨p, hp, rfl⟩ := List.mem_map.mp ha
      exact (hb p (vicinity_subset hp)).1
    have hy1 : minL ((vicinity b pixels).map Pixel.y) ≤
        maxL ((vicinity b pixels).map Pixel.y) := minL_le_maxL hyne
    have hy2 : maxL ((vicinity b pixels).map Pixel.y) < H := by
      apply maxL_lt hyne
      intro a ha
      obtain ⟨p, hp, rfl⟩ := List.mem_map.mp ha
      exact (hb p (vicinity_subset hp)).2
    simp only [bandRegion]
    omega

/-- Claim C1 counterexample: a 100×100 image whose diff pixels fill the
5×20 block with 95 ≤ x ≤ 99, 0 ≤ y ≤ 19 yields the single output region
(90, 0, 15, 30), whose right edge 90 + 15 = 105 exceeds the image width
100, refuting x + width ≤ imageWidth. -/
theorem region_exceeds_image_width :
    cornerPixels.all
      (fun p => decide (p.x < 100) && decide (p.y < 100)) = true ∧
    findBoundingRectangles cornerPixels 100 100 = [⟨90, 0, 15, 30⟩] ∧
    ¬ (90 + 15 ≤ 100) := by decide

/-- Witness for `regions_within_padded_bounds` at the `grid10` input. -/
theorem regions_within_padded_bounds_witness :
    (⟨0, 0, 20, 20⟩ : DiffRegion) ∈ findBoundingRectangles grid10 100 100 ∧
    ((0 : Nat) < 20 ∧ (0 : Nat) < 20 ∧ (20 : Nat) ≤ 100 ∧ (20 : Nat) ≤ 100 ∧
     (0 : Nat) + 20 ≤ 100 + 5 ∧ (0 : Nat) + 20 ≤ 100 + 5) :=
  ⟨by decide,
   regions_within_padded_bounds grid10 100 100 (by decide)
     ⟨0, 0, 20, 20⟩ (by decide)⟩

/-- Claim C2 (amended): the overall bounding box is NOT exempt from the
minimum-area filter: like every candidate it is dropped whenever its area
is at or below 100px², so it never appears in the output in that case. -/
theorem bbox_not_exempt_from_area_filter (pixels : List Pixel) (W H : Nat)
    (h : (overallBBox pixels).width * (overallBBox pixels).height ≤ 100) :
    overallBBox pixels ∉ findBoundingRectangles pixels W H := by
  intro hmem
  have := (of_mem_areaFiltered (mem_areaFiltered_of_mem_output hmem)).2
  omega

/-- Claim C2 counterexample: for the non-empty pixel list [(0, 0)] the
tight bounding box (0, 0, 1, 1) has area 1 ≤ 100 and the output is empty,
so the bbox does not appear even though diff pixels exist. -/
theorem bbox_filtered_out_counterexample :
    ([⟨0, 0⟩] : List Pixel) ≠ [] ∧
    (overallBBox [⟨0, 0⟩]).width * (overallBBox [⟨0, 0⟩]).height ≤ 100 ∧
    findBoundingRectangles [⟨0, 0⟩] 100 100 = [] := by decide

/-- Witness for `bbox_not_exempt_from_area_filter` at a one-pixel input. -/
theorem bbox_not_exempt_witness :
    (overallBBox [⟨5, 5⟩]).width * (overallBBox [⟨5, 5⟩]).height ≤ 100 ∧
    overallBBox [⟨5, 5⟩] ∉ findBoundingRectangles [⟨5, 5⟩] 64 64 :=
  ⟨by decide, bbox_not_exempt_from_area_filter [⟨5, 5⟩] 64 64 (by decide)⟩

/-- Claim C3 (amended): for a band holding more than 10% of all matched
pixels and more than 50 pixels in its ±15px vicinity, a band-specific
candidate is produced whose vertical extent is the 5px-padded tight extent
of the pixels in the vicinity (top clamped at 0 by natural subtraction,
height capped at the image height) — not the band ±15px itself — and it is
a member of the candidate list; it reaches the output only if it survives
the area, containment and count-cap filters, possibly instead of (not in
addition to) the overall bounding box. -/
theorem band_candidate_in_candidates (pixels : List Pixel) (W H b : Nat)
    (hcount : pixels.length < 10 * countBand b pixels)
    (hvic : 50 < (vicinity b pixels).length) :
    bandRegion b pixels W H ∈ candidateRegions pixels W H ∧
    (bandRegion b pixels W H).y =
      minL ((vicinity b pixels).map Pixel.y) - 5 ∧
    (bandRegion b pixels W H).height =
      min H (maxL ((vicinity b pixels).map Pixel.y) -
        minL ((vicinity b pixels).map Pixel.y) + 11) := by
  refine ⟨?_, rfl, rfl⟩
  have hc0 : 0 < countBand b pixels := by omega
  obtain ⟨p, hp, hkey⟩ : ∃ p ∈ pixels, bandKey p = b := by
    unfold countBand at hc0
    have hfne : (pixels.filter fun p => bandKey p == b) ≠ [] := by
      intro hnil; rw [hnil] at hc0; simp at hc0
    obtain ⟨q, hq⟩ := List.exists_mem_of_ne_nil _ hfne
    have hq2 := List.mem_filter.mp hq
    exact ⟨q, hq2.1, by simpa using hq2.2⟩
  have hbk : b ∈ bandKeys pixels :=
    mem_bandKeys.mpr (List.mem_map.mpr ⟨p, hp, hkey⟩)
  unfold candidateRegions
  refine List.mem_cons_of_mem _ ?_
  unfold bandCandidates
  refine List.mem_filterMap.mpr ⟨b, hbk, ?_⟩
  rw [if_pos hcount, if_pos hvic]

/-- Claim C3 counterexample: in a 100×100 image whose diff pixels are
exactly the row y = 50, the band at y = 50 holds 100% of the pixels, yet
the output is only [(0, 45, 100, 11)]: the overall bounding box
(0, 50, 100, 1) is NOT additionally present (its area is filtered out),
and no output region covers the band ±15px (no region spans y = 35 to
y = 65). -/
theorem band_output_counterexample :
    100 < 10 * countBand 50 row50 ∧
    50 < (vicinity 50 row50).length ∧
    row50.length = 100 ∧
    findBoundingRectangles row50 100 100 = [⟨0, 45, 100, 11⟩] ∧
    overallBBox row50 ∉ findBoundingRectangles row50 100 100 ∧
    (findBoundingRectangles row50 100 100).all
      (fun r => !(decide (r.y ≤ 35) && decide (65 ≤ r.y + r.height)))
      = true := by decide

/-- Witness for `band_candidate_in_candidates` at the row y = 50 input. -/
theorem band_candidate_witness :
    row50.length < 10 * countBand 50 row50 ∧
    50 < (vicinity 50 row50).length ∧
    (bandRegion 50 row50 100 100 ∈ candidateRegions row50 100 100 ∧
     (bandRegion 50 row50 100 100).y =
       minL ((vicinity 50 row50).map Pixel.y) - 5 ∧
     (bandRegion 50 row50 100 100).height =
       min 100 (maxL ((vicinity 50 row50).map Pixel.y) -
         minL ((vicinity 50 row50).map Pixel.y) + 11)) :=
  ⟨by decide, by decide,
   band_candidate_in_candidates row50 100 100 50 (by decide) (by decide)⟩

/-- Claim C4 (amended): when the diff pixels form a single small cluster
of at most 50 pixels whose tight bounding box has area above 100px², the
extractor returns exactly that tight bounding box (no band can qualify,
since a band needs more than 50 vicinity pixels). Without these two
provisos the claim fails: a sub-100px² cluster is filtered out entirely,
and a cluster of more than 50 pixels can trigger a padded band rectangle
that replaces the tight bbox (see the counterexample). -/
theorem small_cluster_output_is_bbox (pixels : List Pixel) (W H : Nat)
    (hne : pixels ≠ []) (hsmall : pixels.length ≤ 50)
    (harea : 100 < (overallBBox pixels).width * (overallBBox pixels).height) :
    findBoundingRectangles pixels W H = [overallBBox pixels] := by
  have hbc : bandCandidates pixels W H = [] := by
    rw [bandCandidates, List.filterMap_eq_nil_iff]
    intro b hb
    have hv : (vicinity b pixels).length ≤ 50 :=
      le_trans (List.length_filter_le _ _) hsmall
    by_cases h1 : 10 * countBand b pixels > pixels.length
    · rw [if_pos h1, if_neg (by omega)]
    · rw [if_neg h1]
  have haf : areaFiltered pixels W H = [overallBBox pixels] := by
    rw [areaFiltered, candidateRegions, hbc]
    simp [harea]
  rw [findBoundingRectangles, if_neg (by simp [hne]), haf]
  rfl

/-- Claim C4 counterexample: the single small 10×10 cluster filling
0 ≤ x, y ≤ 9 of a 100×100 image (100 pixels). Its tight bounding box is
(0, 0, 10, 10), but the first (and only) returned region is the padded
band rectangle (0, 0, 20, 20): the tight bbox was removed by the area
filter (area exactly 100) and by containment in the band rectangle. -/
theorem small_cluster_counterexample :
    findBoundingRectangles grid10 100 100 = [⟨0, 0, 20, 20⟩] ∧
    overallBBox grid10 = ⟨0, 0, 10, 10⟩ ∧
    (⟨0, 0, 20, 20⟩ : DiffRegion) ≠ ⟨0, 0, 10, 10⟩ := by decide

/-- Witness for `small_cluster_output_is_bbox` at a two-pixel cluster. -/
theorem small_cluster_witness :
    ([⟨0, 0⟩, ⟨20, 20⟩] : List Pixel) ≠ [] ∧
    ([⟨0, 0⟩, ⟨20, 20⟩] : List Pixel).length ≤ 50 ∧
    100 < (overallBBox [⟨0, 0⟩, ⟨20, 20⟩]).width *
      (overallBBox [⟨0, 0⟩, ⟨20, 20⟩]).height ∧
    findBoundingRectangles [⟨0, 0⟩, ⟨20, 20⟩] 100 100 =
      [overallBBox [⟨0, 0⟩, ⟨20, 20⟩]] :=
  ⟨by decide, by decide, by decide,
   small_cluster_output_is_bbox [⟨0, 0⟩, ⟨20, 20⟩] 100 100
     (by decide) (by decide) (by decide)⟩

/-- Claim C5 (confirmed): for the 100×100 image whose diff pixels are
exactly (x, 90) for 0 ≤ x ≤ 99, the output omits the overall bounding box
(0, 90, 100, 1) (area 100 is not above the threshold) and is exactly the
single padded full-width band region (0, 85, 100, 11): x = 0, width = 100,
vertical extent the 5px-padded band vicinity [85, 95] clamped to the
image. -/
theorem full_width_band_example :
    findBoundingRectangles row90 100 100 = [⟨0, 85, 100, 11⟩] ∧
    overallBBox row90 = ⟨0, 90, 100, 1⟩ ∧
    (⟨0, 90, 100, 1⟩ : DiffRegion) ∉ findBoundingRectangles row90 100 100 := by
  decide

/-- Claim C6 (confirmed): with zero diff pixels the extractor returns the
empty region list (total function, hence no exception). -/
theorem empty_pixels_empty_output (W H : Nat) :
    findBoundingRectangles [] W H = [] := rfl

/-- The containment-filtered enumeration has no duplicate entries, since
the indices attached by `enum` are pairwise distinct. -/
theorem nodup_filtered_enum (arr : List DiffRegion) :
    (arr.enum.filter (keepB arr)).Nodup :=
  (List.filter_sublist _).nodup
    (List.Nodup.of_map Prod.fst
      (by rw [List.enum_map_fst]; exact List.nodup_range _))

/-- Claim C7 (confirmed): no output region is fully contained (in the
non-strict sense of the code) in an output region at a different
position: any entry contained in another surviving entry would itself
have been removed by the containment filter. -/
theorem output_no_containment (pixels : List Pixel) (W H i j : Nat)
    (ri rj : DiffRegion)
    (hi : (findBoundingRectangles pixels W H)[i]? = some ri)
    (hj : (findBoundingRectangles pixels W H)[j]? = some rj)
    (hij : i ≠ j) :
    ¬ (rj.x ≤ ri.x ∧ rj.y ≤ ri.y ∧
       ri.x + ri.width ≤ rj.x + rj.width ∧
       ri.y + ri.height ≤ rj.y + rj.height) := by
  intro hcon
  rw [findBoundingRectangles] at hi hj
  by_cases hemp : pixels.isEmpty
  · rw [if_pos hemp] at hi
    simp at hi
  · rw [if_neg hemp] at hi hj
    have hi5 : i < 5 := by
      obtain ⟨hlt, -⟩ := List.getElem?_eq_some_iff.mp hi
      rw [List.length_take] at hlt
      omega
    have hj5 : j < 5 := by
      obtain ⟨hlt, -⟩ := List.getElem?_eq_some_iff.mp hj
      rw [List.length_take] at hlt
      omega
    rw [List.getElem?_take_of_lt hi5] at hi
    rw [List.getElem?_take_of_lt hj5] at hj
    unfold uniqueRegions at hi hj
    rw [List.getElem?_map] at hi hj
    obtain ⟨pi, hpi, hpi2⟩ := Option.map_eq_some'.mp hi
    obtain ⟨pj, hpj, hpj2⟩ := Option.map_eq_some'.mp hj
    obtain ⟨ii, ri'⟩ := pi
    obtain ⟨jj, rj'⟩ := pj
    dsimp only at hpi2 hpj2
    subst hpi2
    subst hpj2
    have hmi := List.getElem?_mem hpi
    have hmj := List.getElem?_mem hpj
    have hki : keepB (areaFiltered pixels W H) (ii, ri') = true :=
      (List.mem_filter.mp hmi).2
    have hgi : (areaFiltered pixels W H)[ii]? = some ri' :=
      List.mem_enum_iff_getElem?.mp (List.mem_filter.mp hmi).1
    have hgj : (areaFiltered pixels W H)[jj]? = some rj' :=
      List.mem_enum_iff_getElem?.mp (List.mem_filter.mp hmj).1
    have hne2 : jj ≠ ii := by
      intro heq
      have h1 : some rj' = some ri' := by rw [← hgj, heq, hgi]
      have h2 : ((ii, ri') : Nat × DiffRegion) = (jj, rj') := by
        rw [heq, Option.some.inj h1]
      have hlen :
          i < ((areaFiltered pixels W H).enum.filter
            (keepB (areaFiltered pixels W H))).length :=
        (List.getElem?_eq_some_iff.mp hpi).1
      exact hij (List.getElem?_inj hlen (nodup_filtered_enum _)
        (by rw [hpi, hpj, h2]))
    have hfalse := keepB_spec hki hgj hne2
    have htrue : containsB rj' ri' = true := by
      simp only [containsB, Bool.and_eq_true, decide_eq_true_eq]
      exact ⟨⟨⟨hcon.1, hcon.2.1⟩, hcon.2.2.1⟩, hcon.2.2.2⟩
    rw [htrue] at hfalse
    exact Bool.noConfusion hfalse

/-- Witness for `output_no_containment`: the input `rowPlus` produces two
output regions, and neither contains the other. -/
theorem output_no_containment_witness :
    (findBoundingRectangles rowPlus 100 100)[0]? = some ⟨0, 0, 100, 91⟩ ∧
    (findBoundingRectangles rowPlus 100 100)[1]? = some ⟨0, 85, 100, 11⟩ ∧
    ¬ ((0 : Nat) ≤ 0 ∧ (85 : Nat) ≤ 0 ∧
       (0 : Nat) + 100 ≤ 0 + 100 ∧ (0 : Nat) + 91 ≤ 85 + 11) :=
  ⟨by decide, by decide,
   output_no_containment rowPlus 100 100 0 1 ⟨0, 0, 100, 91⟩
     ⟨0, 85, 100, 11⟩ (by decide) (by decide) (by decide)⟩

/-- Claim C8 (confirmed): the output list never holds more than 5
regions, whatever the input (the code ends with slice(0, 5)). -/
theorem output_length_le_five (pixels : List Pixel) (W H : Nat) :
    (findBoundingRectangles pixels W H).length ≤ 5 := by
  rw [findBoundingRectangles]
  split
  · simp
  · rw [List.length_take]
    omega

/-- Claim C9 (confirmed): the extractor is a pure function of the pixel
list (in order) and the image dimensions, so two invocations on identical
inputs return identical region lists. -/
theorem extractor_deterministic (pa pb : List Pixel) (Wa Wb Ha Hb : Nat)
    (hp : pa = pb) (hW : Wa = Wb) (hH : Ha = Hb) :
    findBoundingRectangles pa Wa Ha = findBoundingRectangles pb Wb Hb := by
  rw [hp, hW, hH]

/-- Witness for `extractor_deterministic` at a concrete input. -/
theorem extractor_deterministic_witness :
    findBoundingRectangles [⟨3, 4⟩] 10 10 =
      findBoundingRectangles [⟨3, 4⟩] 10 10 :=
  extractor_deterministic [⟨3, 4⟩] [⟨3, 4⟩] 10 10 10 10 rfl rfl rfl

/-- Claim C10 (confirmed): the containment filter is non-strict, so any
value occurring at two distinct indices of the area-filtered candidate
array is removed entirely (each occurrence contains the other); on a
20×12 image fully covered by diff pixels the overall bounding box and two
band rectangles are the identical rectangle (0, 0, 20, 12), all three are
removed, and the extractor returns an empty list. (The code checks
containment against the area-filtered array rather than the raw candidate
list, but that distinction cannot change membership: a containing
rectangle has at least the area of the contained one, so it passes the
area filter whenever the contained one does.) -/
theorem duplicate_candidates_removed :
    (∀ (pixels : List Pixel) (W H i j : Nat) (r : DiffRegion),
        (areaFiltered pixels W H)[i]? = some r →
        (areaFiltered pixels W H)[j]? = some r →
        i ≠ j → r ∉ findBoundingRectangles pixels W H) ∧
    areaFiltered block2012 20 12 =
      [⟨0, 0, 20, 12⟩, ⟨0, 0, 20, 12⟩, ⟨0, 0, 20, 12⟩] ∧
    findBoundingRectangles block2012 20 12 = [] := by
  refine ⟨?_, by decide, by decide⟩
  intro pixels W H i j r hi hj hij hmem
  have hmu : r ∈ uniqueRegions (areaFiltered pixels W H) := by
    rw [findBoundingRectangles] at hmem
    split at hmem
    · simp at hmem
    · exact List.mem_of_mem_take hmem
  obtain ⟨k, hk, hkeep⟩ := mem_uniqueRegions hmu
  have hck : containsB r r = true := by simp [containsB]
  rcases eq_or_ne i k with rfl | hik
  · have hf := keepB_spec hkeep hj (by omega)
    rw [hck] at hf
    exact Bool.noConfusion hf
  · have hf := keepB_spec hkeep hi hik
    rw [hck] at hf
    exact Bool.noConfusion hf

/-- Witness for the universally quantified part of
`duplicate_candidates_removed`, at the 20×12 full-coverage input. -/
theorem duplicate_candidates_removed_witness :
    (⟨0, 0, 20, 12⟩ : DiffRegion) ∉ findBoundingRectangles block2012 20 12 :=
  duplicate_candidates_removed.1 block2012 20 12 0 1 ⟨0, 0, 20, 12⟩
    (by decide) (by decide) (by decide)
